import Mathlib

/-!
Verification of the image crawling / filtering / deduplication pipeline
(`crawler/deduplicator.py`, `crawler/filters.py`, `crawler/image_crawler.py`).

The Python code is shallowly embedded: the persistent hash database
(a JSON object mapping the hex string of a 64-bit perceptual hash to a
representative file path) becomes an association list `List (Nat × String)`
in insertion order, perceptual hashes become `Nat`, and every fallible
operation (image decode, HTTP fetch) is represented by `Option` / an
explicit outcome type.  File-system and network effects are tracked
explicitly (files written, files removed, save calls, sleep calls).
-/

namespace OcrDlp

/-- Halving recursion for `popCount` with an explicit fuel bound, so the
function is structurally recursive and reduces by kernel computation;
`fuel = n` always suffices since `n` needs at most `log2 n + 1 ≤ n`
halvings to reach zero. -/
def popCountAux : Nat → Nat → Nat
  | _, 0 => 0
  | 0, _ + 1 => 0
  | fuel + 1, n + 1 => ((n + 1) % 2) + popCountAux fuel ((n + 1) / 2)

/-- Number of set bits of a natural number (`popcount`). -/
def popCount (n : Nat) : Nat := popCountAux n n

/-- Hamming distance between two fingerprints: popcount of their XOR.
This is what `imagehash.ImageHash.__sub__` computes between two hashes
of equal size. -/
def hamming (a b : Nat) : Nat := popCount (a ^^^ b)

/-- The in-memory hash database `ImageDeduplicator.hash_db`: an
insertion-ordered association list from fingerprint to representative
file path (Python dicts preserve insertion order). -/
abbrev Db := List (Nat × String)

/-- The linear scan of `ImageDeduplicator.is_duplicate`: does any stored
fingerprint lie within `t` of the query hash `h`?  The Python loop
computes `image_hash - existing_hash_obj` for each stored entry and
returns `True` at the first distance `<= threshold`. -/
def scanDup (t : Nat) (db : Db) (h : Nat) : Bool :=
  db.any (fun e => decide (hamming h e.1 ≤ t))

/-- `ImageDeduplicator.is_duplicate` (`crawler/deduplicator.py`).
Input `hash?` is the result of `_calculate_hash` (`none` when the image
could not be hashed).  Returns the reported verdict, the resulting
database, and the number of `_save_hash_db` calls performed. -/
def is_duplicate (t : Nat) (db : Db) (hash? : Option Nat) (path : String) :
    Bool × Db × Nat :=
  match hash? with
  | none => (false, db, 0)
  | some h =>
    if scanDup t db h then (true, db, 0)
    else (false, db ++ [(h, path)], 1)

/-- Modelled from the spec: the average-hash computation of the external
`imagehash` library (not part of this repository).  Given the downsampled
luminance grid, compute the grid mean and set bit `i` exactly when pixel
`i` is at least the mean (`pixel * n ≥ sum` is the exact form of
`pixel ≥ sum / n`). -/
def averageHash (grid : List Nat) : Nat :=
  grid.foldr
    (fun px acc => 2 * acc + (if grid.length * px ≥ grid.sum then 1 else 0)) 0

/-- `ImageDeduplicator._calculate_hash`: decoding happens first
(`Image.open` plus conversion), represented by the optional luminance
grid; any decode failure is caught and surfaces as `none` instead of a
fingerprint. -/
def calculateHash (grid? : Option (List Nat)) : Option Nat :=
  match grid? with
  | none => none
  | some g => some (averageHash g)

/-- Inner loop shared by `get_duplicate_groups` and
`remove_duplicates_from_directory`: scan the whole map `l`, skipping
entries whose key is already in `processed`, collecting the paths of
entries within `t` of the representative hash `h1` and marking them
processed. -/
def innerScan (t h1 : Nat) : List (Nat × String) → List Nat →
    List String × List Nat
  | [], processed => ([], processed)
  | (h2, f2) :: rest, processed =>
    if h2 ∈ processed then innerScan t h1 rest processed
    else if hamming h1 h2 ≤ t then
      let r := innerScan t h1 rest (h2 :: processed)
      (f2 :: r.1, r.2)
    else innerScan t h1 rest processed

/-- Outer loop of `ImageDeduplicator.get_duplicate_groups`: each not-yet
processed entry becomes the representative of a fresh group, whose
members are collected by `innerScan` over the full map; only groups with
more than one member are reported. -/
def outerScan (t : Nat) (full : List (Nat × String)) :
    List (Nat × String) → List Nat → List (Nat × List String)
  | [], _ => []
  | (h1, f1) :: rest, processed =>
    if h1 ∈ processed then outerScan t full rest processed
    else
      let r := innerScan t h1 full (h1 :: processed)
      let group := f1 :: r.1
      if 1 < group.length then (h1, group) :: outerScan t full rest r.2
      else outerScan t full rest r.2

/-- `ImageDeduplicator.get_duplicate_groups` over a database `db`. -/
def get_duplicate_groups (t : Nat) (db : Db) : List (Nat × List String) :=
  outerScan t db db []

/-- Python dict assignment `d[k] = v`: overwrite the value in place when
the key exists (keeping its position), otherwise append the new binding. -/
def dictInsert {α β : Type} [DecidableEq α] (db : List (α × β)) (k : α)
    (v : β) : List (α × β) :=
  if db.any (fun e => decide (e.1 = k)) then
    db.map (fun e => if e.1 = k then (k, v) else e)
  else db ++ [(k, v)]

/-- One step of building the `file_hashes` dict of
`remove_duplicates_from_directory`: files that failed to hash are
skipped, hashed files are assigned into the dict keyed by fingerprint. -/
def buildStep (db : List (Nat × String)) (pr : String × Option Nat) :
    List (Nat × String) :=
  match pr.2 with
  | none => db
  | some h => dictInsert db h pr.1

/-- The `file_hashes` dict built by `remove_duplicates_from_directory`:
scan results in directory order, pairs of file path and optional
fingerprint; files that fail to hash are skipped and a later file with
the same fingerprint overwrites the earlier one's slot. -/
def buildFileHashes (scan : List (String × Option Nat)) :
    List (Nat × String) :=
  scan.foldl buildStep []

/-- Deletion loop of `ImageDeduplicator.remove_duplicates_from_directory`:
for each unprocessed candidate the greedy group is collected by
`innerScan`, the representative is kept and every other group member is
unlinked (`similar_files[1:]`).  Returns the list of deleted paths in
deletion order. -/
def removeScan (t : Nat) (full : List (Nat × String)) :
    List (Nat × String) → List Nat → List String
  | [], _ => []
  | (h1, _) :: rest, processed =>
    if h1 ∈ processed then removeScan t full rest processed
    else
      let r := innerScan t h1 full (h1 :: processed)
      r.1 ++ removeScan t full rest r.2

/-- The paths removed by `remove_duplicates_from_directory` for a given
directory scan (every `unlink` is assumed to succeed). -/
def removedFiles (t : Nat) (scan : List (String × Option Nat)) :
    List String :=
  let fh := buildFileHashes scan
  removeScan t fh fh []

/-- Return value of `remove_duplicates_from_directory`: the removed
count. -/
def remove_duplicates_from_directory (t : Nat)
    (scan : List (String × Option Nat)) : Nat :=
  (removedFiles t scan).length

/-- The path of the last file in scan order carrying fingerprint `h`
(a specification-side helper used to state which file survives the
dict keying of `remove_duplicates_from_directory`). -/
def lastPathFor : List (String × Option Nat) → Nat → Option String
  | [], _ => none
  | pr :: rest, h =>
    match lastPathFor rest h with
    | some f => some f
    | none => if pr.2 = some h then some pr.1 else none

/-- Decoded image properties as seen by PIL in
`ImageFilter._check_image_properties`: format name, pixel dimensions, and
whether the full decode `img.load()` succeeds (truncated/corrupt files
raise there). -/
structure ImgProps where
  format : String
  width : Nat
  height : Nat
  loadOk : Bool
deriving DecidableEq

/-- A file on disk as observed by `ImageFilter.is_valid_image`:
`byteSize?` is the result of `stat()` (`none` when it raises) and `img?`
the result of `Image.open` (`none` when decoding raises). -/
structure ImgFile where
  byteSize? : Option Nat
  img? : Option ImgProps
deriving DecidableEq

/-- Constructor parameters of `ImageFilter` (`crawler/filters.py`). -/
structure FilterConfig where
  min_size : Nat
  max_size : Nat
  min_file_size : Nat
  max_file_size : Nat
  allowed_formats : List String
deriving DecidableEq

/-- The `ImageFilter()` defaults used by the crawler. -/
def defaultFilterConfig : FilterConfig :=
  ⟨300, 4096, 5000, 10 * 1024 * 1024, ["JPEG", "PNG", "WEBP"]⟩

/-- `ImageFilter._check_image_properties`: format check, dimension check,
aspect-ratio check, full decode.  A decode failure (`img? = none`) is
caught and yields `false`.  The aspect ratio `max/min > 10` is compared
exactly (`10 * min < max`); when `min width height = 0` the Python float
division raises `ZeroDivisionError`, which the surrounding handler turns
into `false`. -/
def check_image_properties (cfg : FilterConfig) (img? : Option ImgProps) :
    Bool :=
  match img? with
  | none => false
  | some img =>
    if cfg.allowed_formats.contains img.format then
      if img.width < cfg.min_size ∨ img.height < cfg.min_size ∨
          img.width > cfg.max_size ∨ img.height > cfg.max_size then false
      else if min img.width img.height = 0 then false
      else if 10 * min img.width img.height < max img.width img.height then
        false
      else img.loadOk
    else false

/-- `ImageFilter.is_valid_image`: file-size gate first, then the decoded
property checks; any stat failure is caught and yields `false`. -/
def is_valid_image (cfg : FilterConfig) (f : ImgFile) : Bool :=
  match f.byteSize? with
  | none => false
  | some sz =>
    if sz < cfg.min_file_size ∨ sz > cfg.max_file_size then false
    else check_image_properties cfg f.img?

/-- Outcome of one `session.get(url)` attempt inside
`ImageCrawler._download_single_image`: either a response (status code,
content-type header, and the file that the body would produce on disk
together with its decoded luminance grid), or a raised exception
(timeout, connection error, read failure). -/
inductive Fetch where
  | resp (status : Nat) (ct : String) (file : ImgFile)
      (grid? : Option (List Nat))
  | err
deriving DecidableEq

/-- Whether `sub` occurs inside `s` (Python's `in` on strings). -/
def strContains (s sub : String) : Bool :=
  s.data.tails.any (fun t => sub.data.isPrefixOf t)

/-- File-extension resolution of `_download_single_image`: content-type
header first, then the (lowercased) extension of the URL path, else
`.jpg`. -/
def chooseExt (ct urlExt : String) : String :=
  if strContains ct "jpeg" ∨ strContains ct "jpg" then ".jpg"
  else if strContains ct "png" then ".png"
  else if strContains ct "webp" then ".webp"
  else if urlExt = ".jpg" ∨ urlExt = ".jpeg" ∨ urlExt = ".png" ∨
      urlExt = ".webp" then urlExt
  else ".jpg"

/-- Observable outcome of one `_download_single_image` call: the returned
`{url: filepath}` entry (or `None`), the files written to and removed
from the output directory, the number of attempts entered, the number of
`asyncio.sleep(1)` calls, the resulting hash database, the number of
`_save_hash_db` calls, and the filter / duplicate verdicts reached (if
any). -/
structure SingleOut where
  kept : Option (String × String)
  written : List String
  removed : List String
  tried : Nat
  sleeps : Nat
  db : Db
  saves : Nat
  filterV : Option Bool
  dupV : Option Bool
deriving DecidableEq

/-- The retry loop `for attempt in range(self.retry_attempts)` of
`_download_single_image`, with `rem` attempts remaining and `i` the
current attempt index.  On a 200 response the body is saved, filtered,
and checked against the duplicate index (rejected files are removed
before the loop breaks); statuses 404/403/410 break immediately; any
other status falls through and retries with no delay; a raised exception
sleeps one second before retrying unless this was the last attempt. -/
def attemptGo (cfg : FilterConfig) (t : Nat) (url base urlExt : String)
    (env : Nat → Fetch) : Nat → Nat → Db → SingleOut
  | 0, _, db => ⟨none, [], [], 0, 0, db, 0, none, none⟩
  | rem + 1, i, db =>
    match env i with
    | .err =>
      let rest := attemptGo cfg t url base urlExt env rem (i + 1) db
      { rest with
          tried := rest.tried + 1,
          sleeps := rest.sleeps + (if rem = 0 then 0 else 1) }
    | .resp status ct file grid? =>
      if status = 200 then
        let path := base ++ chooseExt ct urlExt
        if is_valid_image cfg file then
          match is_duplicate t db (calculateHash grid?) path with
          | (dup, db', sv) =>
            if dup then ⟨none, [path], [path], 1, 0, db', sv, some true, some true⟩
            else ⟨some (url, path), [path], [], 1, 0, db', sv, some true, some false⟩
        else ⟨none, [path], [path], 1, 0, db, 0, some false, none⟩
      else if status = 404 ∨ status = 403 ∨ status = 410 then
        ⟨none, [], [], 1, 0, db, 0, none, none⟩
      else
        let rest := attemptGo cfg t url base urlExt env rem (i + 1) db
        { rest with tried := rest.tried + 1 }

/-- `ImageCrawler._download_single_image` for one URL: run the attempt
loop from attempt 0 with `retry` total attempts. -/
def downloadSingle (cfg : FilterConfig) (t retry : Nat)
    (url base urlExt : String) (env : Nat → Fetch) (db : Db) : SingleOut :=
  attemptGo cfg t url base urlExt env retry 0 db

/-- The `f"image_{i:06d}"` filename base. -/
def imageBase (i : Nat) : String :=
  let s := Nat.repr i
  "image_" ++ String.mk (List.replicate (6 - s.length) '0') ++ s

/-- Per-URL download environment: the fetch outcome of each attempt and
the lowercased extension of the URL path, keyed by the URL's position in
the input list. -/
structure TaskEnv where
  fetch : Nat → Fetch
  urlExt : String

/-- Result of `ImageCrawler.download_images`: the result mapping, the
per-task outcomes in task order, the final hash database, and the
`downloaded_urls` set. -/
structure BatchOut where
  results : List (String × String)
  outs : List (String × SingleOut)
  db : Db
  downloaded : List String

/-- `set.add` on the `downloaded_urls` set, modelled as an ordered list
without duplicates. -/
def setAdd (l : List String) (x : String) : List String :=
  if x ∈ l then l else l ++ [x]

/-- Sequential execution of the download tasks created by
`download_images` (one canonical schedule of the `tqdm.gather`): each
task runs `_download_single_image`, threads the shared deduplicator
state, adds kept URLs to `downloaded_urls` and merges `{url: path}`
into the results dict. -/
def runTasks (cfg : FilterConfig) (t retry : Nat) (envs : Nat → TaskEnv) :
    List (Nat × String) → Db → List String → List (String × String) →
    BatchOut
  | [], db, dl, res => ⟨res, [], db, dl⟩
  | (i, url) :: rest, db, dl, res =>
    let o := downloadSingle cfg t retry url (imageBase i) (envs i).urlExt
      (envs i).fetch db
    let dl' := if o.kept.isSome then setAdd dl url else dl
    let res' :=
      match o.kept with
      | some (u, p) => dictInsert res u p
      | none => res
    let b := runTasks cfg t retry envs rest o.db dl' res'
    { b with outs := (url, o) :: b.outs }

/-- Task creation of `download_images`: enumerate the URL list and skip
URLs already in `downloaded_urls` (checked before any task runs). -/
def tasksOf (urls dl : List String) : List (Nat × String) :=
  urls.enum.filter (fun pr => decide (pr.2 ∉ dl))

/-- `ImageCrawler.download_images` (`crawler/image_crawler.py`). -/
def downloadImages (cfg : FilterConfig) (t retry : Nat)
    (envs : Nat → TaskEnv) (urls : List String) (db0 : Db)
    (dl0 : List String) : BatchOut :=
  runTasks cfg t retry envs (tasksOf urls dl0) db0 dl0 []

/-- A scheduling step of one concurrent `is_duplicate` call, tagged with
the id of the call: the hash computation awaited in the executor
(touching no shared state), and the check-and-insert section, which
contains no suspension point in the source and therefore runs as one
atomic step of the event loop. -/
inductive SKind where
  | hashStep
  | checkInsert (h : Nat) (p : String)
deriving DecidableEq

/-- A step of a tagged concurrent call. -/
abbrev CStep := Nat × SKind

/-- Effect of one scheduling step on the shared database, producing the
call's reported verdict when the step is its check-and-insert. -/
def execStep (t : Nat) (db : Db) : CStep → Db × Option (Nat × Bool)
  | (_, .hashStep) => (db, none)
  | (i, .checkInsert h p) =>
    match is_duplicate t db (some h) p with
    | (r, db', _) => (db', some (i, r))

/-- Execute a schedule of steps against the shared database, collecting
each call's reported verdict. -/
def execSteps (t : Nat) : List CStep → Db → Db × List (Nat × Bool)
  | [], db => (db, [])
  | s :: rest, db =>
    ((execSteps t rest (execStep t db s).1).1,
     (execStep t db s).2.toList ++ (execSteps t rest (execStep t db s).1).2)

/-- The step sequence of one `is_duplicate` call with id `i` whose image
hashes to `h`. -/
def dedupCall (i h : Nat) (p : String) : List CStep :=
  [(i, .hashStep), (i, .checkInsert h p)]

/-- An arbitrary interleaving of two step sequences, driven by a
schedule of booleans (`true` lets the first call take its next step). -/
def interleave {α : Type} : List Bool → List α → List α → List α
  | [], xs, ys => xs ++ ys
  | _ :: _, [], ys => ys
  | _ :: _, x :: xs, [] => x :: xs
  | b :: bs, x :: xs, y :: ys =>
    if b then x :: interleave bs xs (y :: ys)
    else y :: interleave bs (x :: xs) ys

/-- Number of occurrences of the step `s` in a schedule (a proof-side
helper for stating that a call's check-and-insert runs at most once). -/
def countStep (s : CStep) (l : List CStep) : Nat :=
  l.countP (fun x => decide (x = s))

/-- A well-formed downloaded file: a 500x500 JPEG of 50 KB whose full
decode succeeds (used to instantiate theorems at concrete inputs). -/
def goodImgFile : ImgFile := ⟨some 50000, some ⟨"JPEG", 500, 500, true⟩⟩

/-- A fetch environment failing with raised errors on the first two
attempts and delivering a valid JPEG on the third. -/
def wEnvRetry (j : Nat) : Fetch :=
  if j < 2 then Fetch.err
  else Fetch.resp 200 "image/jpeg" goodImgFile (some [])

/-- A fetch environment answering 404 on every attempt. -/
def wEnv404 (_ : Nat) : Fetch := Fetch.resp 404 "" ⟨none, none⟩ none

/-- A fetch environment answering 500 on the first two attempts and
delivering a valid JPEG on the third. -/
def wEnv500 (j : Nat) : Fetch :=
  if j < 2 then Fetch.resp 500 "" ⟨none, none⟩ none
  else Fetch.resp 200 "image/jpeg" goodImgFile (some [])

/-- A per-task environment for a two-URL batch: the first URL yields a
valid JPEG immediately, the second URL answers 403. -/
def wEnvs2 (i : Nat) : TaskEnv :=
  if i = 0 then
    ⟨fun _ => Fetch.resp 200 "image/jpeg" goodImgFile (some []), ""⟩
  else ⟨fun _ => Fetch.resp 403 "" ⟨none, none⟩ none, ""⟩

/-- What one download task's outcome must satisfy: it is kept exactly
when its fetched file passed the filter and was reported not-duplicate;
a non-kept task has removed every file it wrote; a kept task wrote
exactly the returned file, removed nothing, and returns its own URL. -/
def TaskOK (url : String) (o : SingleOut) : Prop :=
  (o.kept.isSome ↔ (o.filterV = some true ∧ o.dupV = some false)) ∧
  (o.kept = none → o.removed = o.written) ∧
  (∀ u p, o.kept = some (u, p) →
    u = url ∧ o.written = [p] ∧ o.removed = [])

theorem hamming_comm (a b : Nat) : hamming a b = hamming b a := by
  unfold hamming
  rw [Nat.xor_comm]

theorem hamming_self (a : Nat) : hamming a a = 0 := by
  unfold hamming
  rw [Nat.xor_self]
  rfl

theorem scanDup_of_mem {t h : Nat} {db : Db} (hm : h ∈ db.map Prod.fst) :
    scanDup t db h = true := by
  rcases List.mem_map.mp hm with ⟨e, he, hfst⟩
  unfold scanDup
  rw [List.any_eq_true]
  exact ⟨e, he, by rw [hfst, hamming_self]; simp⟩

/-- C1: starting from an empty index, `is_duplicate` inserts `f1` (one
entry, reported not-duplicate, one save), and a second call whose image
hashes to `f2` reports duplicate exactly when `hamming f1 f2 ≤ t`,
leaving the single entry `(f1, p1)` untouched in that case and appending
`(f2, p2)` as a second separate entry otherwise. -/
theorem is_duplicate_pair_spec (t f1 f2 : Nat) (p1 p2 : String) :
    is_duplicate t [] (some f1) p1 = (false, [(f1, p1)], 1) ∧
    is_duplicate t [(f1, p1)] (some f2) p2 =
      (decide (hamming f1 f2 ≤ t),
       if hamming f1 f2 ≤ t then [(f1, p1)] else [(f1, p1), (f2, p2)],
       if hamming f1 f2 ≤ t then 0 else 1) := by
  constructor
  · rfl
  · have hscan : scanDup t [(f1, p1)] f2 = decide (hamming f1 f2 ≤ t) := by
      unfold scanDup
      simp [hamming_comm f2 f1]
    simp only [is_duplicate]
    rw [hscan]
    by_cases h : hamming f1 f2 ≤ t
    · simp [h]
    · simp [h]

/-- C9: when the image could not be decoded or hashed (`_calculate_hash`
returned `None`), `is_duplicate` reports `false`, leaves the database
unchanged, and triggers no save. -/
theorem is_duplicate_nohash_noop (t : Nat) (db : Db) (p : String) :
    is_duplicate t db none p = (false, db, 0) := rfl

/-- C8: the perceptual hash computation yields the failure value `none`
(the embedding of the spec's `DecodeError`) exactly for inputs that
cannot be decoded; every decodable input yields a fingerprint. -/
theorem calculate_hash_decode_failure (grid? : Option (List Nat)) :
    calculateHash grid? = none ↔ grid? = none := by
  cases grid? <;> simp [calculateHash]

/-- C5: the index keeps at most one entry per fingerprint and never
updates an entry in place: given distinct stored fingerprints, after any
`is_duplicate` call the stored fingerprints are still distinct, the new
database extends the old one without rewriting any entry (it is either
unchanged or has exactly the new pair appended), and a fingerprint
already present is reported duplicate with the database — hence its
stored representative path — left untouched. -/
theorem index_insert_only_invariant (t h : Nat) (db : Db) (p : String)
    (hnd : (db.map Prod.fst).Nodup) :
    (((is_duplicate t db (some h) p).2.1.map Prod.fst).Nodup) ∧
    ((is_duplicate t db (some h) p).2.1 = db ∨
      (is_duplicate t db (some h) p).2.1 = db ++ [(h, p)]) ∧
    (h ∈ db.map Prod.fst →
      (is_duplicate t db (some h) p).1 = true ∧
      (is_duplicate t db (some h) p).2.1 = db) := by
  by_cases hscan : scanDup t db h = true
  · simp only [is_duplicate]
    rw [hscan]
    simp [hnd]
  · have hnotmem : h ∉ db.map Prod.fst := fun hm => hscan (scanDup_of_mem hm)
    simp only [is_duplicate]
    rw [if_neg (by simp [hscan])]
    refine ⟨?_, Or.inr rfl, fun hm => absurd hm hnotmem⟩
    simp only [List.map_append, List.map_cons, List.map_nil]
    rw [List.nodup_append]
    exact ⟨hnd, List.nodup_singleton h, by
      intro a ha hb
      simp only [List.mem_singleton] at hb
      exact hnotmem (hb ▸ ha)⟩

/-- C5 witness: with threshold 5 and the fingerprint 3 already stored,
the invariant theorem applies and reports the repeat as a duplicate with
the database unchanged. -/
theorem index_insert_only_invariant_witness :
    (is_duplicate 5 [(3, "a")] (some 3) "b").1 = true ∧
    (is_duplicate 5 [(3, "a")] (some 3) "b").2.1 = [(3, "a")] :=
  (index_insert_only_invariant 5 3 [(3, "a")] "b" (by decide)).2.2
    (by decide)

/-- C3: `is_valid_image` is a total boolean (decode and I/O failures are
the `none` cases and yield `false`), and it returns `true` exactly when
all five checks pass: byte size within `[min_file_size, max_file_size]`,
decodable with a format in `allowed_formats`, both dimensions within
`[min_size, max_size]`, aspect ratio defined and at most 10, and the
full decode succeeding. -/
theorem is_valid_image_iff (cfg : FilterConfig) (f : ImgFile) :
    is_valid_image cfg f = true ↔
      ∃ sz img, f.byteSize? = some sz ∧ f.img? = some img ∧
        cfg.min_file_size ≤ sz ∧ sz ≤ cfg.max_file_size ∧
        cfg.allowed_formats.contains img.format = true ∧
        cfg.min_size ≤ img.width ∧ img.width ≤ cfg.max_size ∧
        cfg.min_size ≤ img.height ∧ img.height ≤ cfg.max_size ∧
        0 < min img.width img.height ∧
        max img.width img.height ≤ 10 * min img.width img.height ∧
        img.loadOk = true := by
  obtain ⟨bs, img?⟩ := f
  cases bs with
  | none => simp [is_valid_image]
  | some sz =>
    cases img? with
    | none =>
      simp only [is_valid_image, check_image_properties]
      constructor
      · intro h
        by_cases hs : sz < cfg.min_file_size ∨ sz > cfg.max_file_size <;>
          simp [hs] at h
      · rintro ⟨sz', img, _, himg, _⟩
        exact absurd himg (by simp)
    | some img =>
      simp only [is_valid_image, check_image_properties]
      by_cases hs : sz < cfg.min_file_size ∨ sz > cfg.max_file_size
      · simp only [if_pos hs]
        constructor
        · intro h
          exact absurd h (by simp)
        · rintro ⟨sz', img', hsz, himg, h1, h2, _⟩
          injection hsz with hsz
          subst hsz
          omega
      · simp only [if_neg hs]
        by_cases hfmt : cfg.allowed_formats.contains img.format = true
        · simp only [if_pos hfmt]
          by_cases hdim : img.width < cfg.min_size ∨ img.height < cfg.min_size ∨
              img.width > cfg.max_size ∨ img.height > cfg.max_size
          · simp only [if_pos hdim]
            constructor
            · intro h
              exact absurd h (by simp)
            · rintro ⟨sz', img', hsz, himg, _, _, _, hw1, hw2, hh1, hh2, _⟩
              injection himg with himg
              subst himg
              omega
          · simp only [if_neg hdim]
            by_cases hmin : min img.width img.height = 0
            · simp only [if_pos hmin]
              constructor
              · intro h
                exact absurd h (by simp)
              · rintro ⟨sz', img', hsz, himg, _, _, _, _, _, _, _, hpos, _⟩
                injection himg with himg
                subst himg
                omega
            · simp only [if_neg hmin]
              by_cases hasp : 10 * min img.width img.height <
                  max img.width img.height
              · simp only [if_pos hasp]
                constructor
                · intro h
                  exact absurd h (by simp)
                · rintro ⟨sz', img', hsz, himg, _, _, _, _, _, _, _, _, hle, _⟩
                  injection himg with himg
                  subst himg
                  omega
              · simp only [if_neg hasp]
                constructor
                · intro h
                  exact ⟨sz, img, rfl, rfl, by omega, by omega, hfmt,
                    by omega, by omega, by omega, by omega, by omega,
                    by omega, h⟩
                · rintro ⟨sz', img', hsz, himg, _, _, _, _, _, _, _, _, _,
                    hload⟩
                  injection himg with himg
                  subst himg
                  exact hload
        · simp only [if_neg hfmt]
          constructor
          · intro h
            exact absurd h (by simp)
          · rintro ⟨sz', img', hsz, himg, _, _, hf, _⟩
            injection himg with himg
            subst himg
            exact absurd hf hfmt

/-- C3 witness: a 500x500 JPEG of 50 KB with a successful full decode is
accepted under the default configuration, through the iff. -/
theorem is_valid_image_iff_witness :
    is_valid_image defaultFilterConfig
      ⟨some 50000, some ⟨"JPEG", 500, 500, true⟩⟩ = true :=
  (is_valid_image_iff defaultFilterConfig
      ⟨some 50000, some ⟨"JPEG", 500, 500, true⟩⟩).mpr
    ⟨50000, ⟨"JPEG", 500, 500, true⟩, rfl, rfl, by decide, by decide,
      by decide, by decide, by decide, by decide, by decide, by decide,
      by decide, rfl⟩

/-- C6: `get_duplicate_groups` clusters greedily by representative, not
by transitive closure: with representative `a` first in iteration order,
two entries `b`, `c` each within threshold of `a` but farther than the
threshold from each other still land in `a`'s single group; an entry `c`
within threshold of the non-representative member `b` but not of the
representative `a` is not merged into `a`'s group and is left to start
its own (singleton groups are not reported). -/
theorem duplicate_groups_greedy_spec (t a b c : Nat) (pa pb pc : String) :
    (hamming a b ≤ t → hamming a c ≤ t → t < hamming b c → a ≠ b →
      get_duplicate_groups t [(a, pa), (b, pb), (c, pc)] =
        [(a, [pa, pb, pc])]) ∧
    (hamming a b ≤ t → t < hamming a c → hamming b c ≤ t → a ≠ b →
      get_duplicate_groups t [(a, pa), (b, pb), (c, pc)] =
        [(a, [pa, pb])]) := by
  constructor
  · intro hab hac hbc hne
    have hba : ¬ (b = a) := fun h => hne h.symm
    have hcb : ¬ (c = b) := by
      intro h
      rw [h, hamming_self] at hbc
      omega
    have hca : ¬ (c = a) := by
      intro h
      rw [h, hamming_comm b a] at hbc
      omega
    simp [get_duplicate_groups, outerScan, innerScan, hab, hac, hba, hcb,
      hca]
  · intro hab hac hbc hne
    have hba : ¬ (b = a) := fun h => hne h.symm
    have hcb : ¬ (c = b) := by
      intro h
      rw [h] at hac
      omega
    have hca : ¬ (c = a) := by
      intro h
      rw [h, hamming_self] at hac
      omega
    have hnac : ¬ (hamming a c ≤ t) := by omega
    simp [get_duplicate_groups, outerScan, innerScan, hab, hnac, hba, hcb,
      hca]

/-- C6 witness: with threshold 5, fingerprints 0, 31, 992 (distances
0-31: 5, 0-992: 5, 31-992: 10) form one group through the
representative, and fingerprints 0, 31, 63 (distances 0-31: 5,
0-63: 6, 31-63: 1) leave 63 outside the group despite being within
threshold of the member 31. -/
theorem duplicate_groups_greedy_spec_witness :
    get_duplicate_groups 5 [(0, "pa"), (31, "pb"), (992, "pc")] =
      [(0, ["pa", "pb", "pc"])] ∧
    get_duplicate_groups 5 [(0, "pa"), (31, "pb"), (63, "pc")] =
      [(0, ["pa", "pb"])] :=
  ⟨(duplicate_groups_greedy_spec 5 0 31 992 "pa" "pb" "pc").1 (by decide)
      (by decide) (by decide) (by decide),
    (duplicate_groups_greedy_spec 5 0 31 63 "pa" "pb" "pc").2 (by decide)
      (by decide) (by decide) (by decide)⟩

theorem dictInsert_keys_nodup {α β : Type} [DecidableEq α]
    {db : List (α × β)} {k : α} {v : β} (h : (db.map Prod.fst).Nodup) :
    ((dictInsert db k v).map Prod.fst).Nodup := by
  unfold dictInsert
  by_cases hany : db.any (fun e => decide (e.1 = k)) = true
  · rw [if_pos hany, List.map_map]
    have hfun : (Prod.fst ∘ fun e : α × β => if e.1 = k then (k, v) else e)
        = Prod.fst := by
      funext e
      by_cases he : e.1 = k <;> simp [he]
    rw [hfun]
    exact h
  · rw [if_neg hany, List.map_append]
    have hk : k ∉ db.map Prod.fst := by
      intro hm
      rcases List.mem_map.mp hm with ⟨e, he, hfst⟩
      apply hany
      rw [List.any_eq_true]
      exact ⟨e, he, by simp [hfst]⟩
    rw [List.nodup_append]
    exact ⟨h, by simp, by
      intro a ha hb
      simp only [List.map_cons, List.map_nil, List.mem_singleton] at hb
      exact hk (hb ▸ ha)⟩

theorem mem_dictInsert {α β : Type} [DecidableEq α] {db : List (α × β)}
    {k : α} {v : β} {x : α × β} (hx : x ∈ dictInsert db k v) :
    x ∈ db ∨ x = (k, v) := by
  unfold dictInsert at hx
  by_cases hany : db.any (fun e => decide (e.1 = k)) = true
  · rw [if_pos hany] at hx
    rcases List.mem_map.mp hx with ⟨e, he, hfe⟩
    by_cases he1 : e.1 = k
    · right
      rw [← hfe, if_pos he1]
    · left
      rw [← hfe, if_neg he1]
      exact he
  · rw [if_neg hany] at hx
    rcases List.mem_append.mp hx with h | h
    · exact Or.inl h
    · exact Or.inr (by simpa using h)

theorem dictInsert_self_value {α β : Type} [DecidableEq α]
    {db : List (α × β)} {k : α} {v f : β}
    (hx : (k, f) ∈ dictInsert db k v) : f = v := by
  unfold dictInsert at hx
  by_cases hany : db.any (fun e => decide (e.1 = k)) = true
  · rw [if_pos hany] at hx
    rcases List.mem_map.mp hx with ⟨e, he, hfe⟩
    by_cases he1 : e.1 = k
    · rw [if_pos he1] at hfe
      injection hfe with _ hv
      exact hv.symm
    · rw [if_neg he1] at hfe
      exact absurd (congrArg Prod.fst hfe) he1
  · rw [if_neg hany] at hx
    rcases List.mem_append.mp hx with h | h
    · exact absurd (by rw [List.any_eq_true]; exact ⟨_, h, by simp⟩) hany
    · simp only [List.mem_singleton] at h
      injection h

theorem mem_dictInsert_of_ne {α β : Type} [DecidableEq α]
    {db : List (α × β)} {k h : α} {v f : β} (hne : h ≠ k) :
    (h, f) ∈ dictInsert db k v ↔ (h, f) ∈ db := by
  constructor
  · intro hx
    rcases mem_dictInsert hx with hm | he
    · exact hm
    · exact absurd (congrArg Prod.fst he) hne
  · intro hm
    unfold dictInsert
    by_cases hany : db.any (fun e => decide (e.1 = k)) = true
    · rw [if_pos hany]
      refine List.mem_map.mpr ⟨(h, f), hm, ?_⟩
      rw [if_neg (by simpa using hne)]
    · rw [if_neg hany]
      exact List.mem_append.mpr (Or.inl hm)

theorem buildFoldl_nodup (scan : List (String × Option Nat)) :
    ∀ db0 : List (Nat × String), (db0.map Prod.fst).Nodup →
    ((scan.foldl buildStep db0).map Prod.fst).Nodup := by
  induction scan with
  | nil => intro db0 h; exact h
  | cons pr rest ih =>
    intro db0 h
    rw [List.foldl_cons]
    cases hpr : pr.2 with
    | none =>
      have hstep : buildStep db0 pr = db0 := by simp [buildStep, hpr]
      rw [hstep]
      exact ih db0 h
    | some hh =>
      have hstep : buildStep db0 pr = dictInsert db0 hh pr.1 := by
        simp [buildStep, hpr]
      rw [hstep]
      exact ih _ (dictInsert_keys_nodup h)

theorem buildFoldl_mem_last (scan : List (String × Option Nat)) :
    ∀ (db0 : List (Nat × String)) (h : Nat) (f : String),
    (h, f) ∈ scan.foldl buildStep db0 →
    lastPathFor scan h = some f ∨
      (lastPathFor scan h = none ∧ (h, f) ∈ db0) := by
  induction scan with
  | nil => intro db0 h f hm; exact Or.inr ⟨rfl, hm⟩
  | cons pr rest ih =>
    intro db0 h f hm
    rw [List.foldl_cons] at hm
    cases hpr : pr.2 with
    | none =>
      have hstep : buildStep db0 pr = db0 := by simp [buildStep, hpr]
      rw [hstep] at hm
      rcases ih db0 h f hm with hl | ⟨hn, hmem⟩
      · left
        simp [lastPathFor, hl]
      · right
        refine ⟨?_, hmem⟩
        simp [lastPathFor, hn, hpr]
    | some hh =>
      have hstep : buildStep db0 pr = dictInsert db0 hh pr.1 := by
        simp [buildStep, hpr]
      rw [hstep] at hm
      rcases ih _ h f hm with hl | ⟨hn, hmem⟩
      · left
        simp [lastPathFor, hl]
      · by_cases hhh : h = hh
        · subst hhh
        -- the key matches: the stored value is this file's path
          have hv : f = pr.1 := dictInsert_self_value hmem
          left
          simp [lastPathFor, hn, hpr, hv]
        · right
          refine ⟨?_, (mem_dictInsert_of_ne hhh).mp hmem⟩
          have : ¬ (pr.2 = some h) := by
            rw [hpr]
            intro hc
            injection hc with hc
            exact hhh hc.symm
          simp [lastPathFor, hn, this]

theorem buildFoldl_mem_src (scan : List (String × Option Nat)) :
    ∀ (db0 : List (Nat × String)) (k : Nat) (v : String),
    (k, v) ∈ scan.foldl buildStep db0 →
    (k, v) ∈ db0 ∨ (v, some k) ∈ scan := by
  induction scan with
  | nil => intro db0 k v hm; exact Or.inl hm
  | cons pr rest ih =>
    intro db0 k v hm
    rw [List.foldl_cons] at hm
    cases hpr : pr.2 with
    | none =>
      have hstep : buildStep db0 pr = db0 := by simp [buildStep, hpr]
      rw [hstep] at hm
      rcases ih db0 k v hm with h | h
      · exact Or.inl h
      · exact Or.inr (List.mem_cons_of_mem _ h)
    | some hh =>
      have hstep : buildStep db0 pr = dictInsert db0 hh pr.1 := by
        simp [buildStep, hpr]
      rw [hstep] at hm
      rcases ih _ k v hm with h | h
      · rcases mem_dictInsert h with h' | h'
        · exact Or.inl h'
        · right
          have hk : k = hh := congrArg Prod.fst h'
          have hv : v = pr.1 := congrArg Prod.snd h'
          have hpr' : (v, some k) = pr := by
            have heta : pr = (pr.1, pr.2) := rfl
            rw [heta, hpr, hk, hv]
          rw [hpr']
          exact List.mem_cons_self _ _
      · exact Or.inr (List.mem_cons_of_mem _ h)

theorem innerScan_collect (t h1 : Nat) :
    ∀ (l : List (Nat × String)) (processed : List Nat) (f : String),
    f ∈ (innerScan t h1 l processed).1 →
    ∃ h2, (h2, f) ∈ l ∧ h2 ∉ processed ∧ hamming h1 h2 ≤ t := by
  intro l
  induction l with
  | nil =>
    intro processed f hf
    simp [innerScan] at hf
  | cons e rest ih =>
    obtain ⟨h2, f2⟩ := e
    intro processed f hf
    by_cases hmem : h2 ∈ processed
    · simp only [innerScan, if_pos hmem] at hf
      rcases ih processed f hf with ⟨h', hm, hp, hd⟩
      exact ⟨h', List.mem_cons_of_mem _ hm, hp, hd⟩
    · by_cases hd : hamming h1 h2 ≤ t
      · simp only [innerScan, if_neg hmem, if_pos hd] at hf
        rcases List.mem_cons.mp hf with hfe | hf'
        · subst hfe
          exact ⟨h2, List.mem_cons_self _ _, hmem, hd⟩
        · rcases ih (h2 :: processed) f hf' with ⟨h', hm, hp, hdd⟩
          exact ⟨h', List.mem_cons_of_mem _ hm,
            fun hx => hp (List.mem_cons_of_mem _ hx), hdd⟩
      · simp only [innerScan, if_neg hmem, if_neg hd] at hf
        rcases ih processed f hf with ⟨h', hm, hp, hdd⟩
        exact ⟨h', List.mem_cons_of_mem _ hm, hp, hdd⟩

theorem innerScan_processed_sub (t h1 : Nat) :
    ∀ (l : List (Nat × String)) (processed : List Nat) (x : Nat),
    x ∈ processed → x ∈ (innerScan t h1 l processed).2 := by
  intro l
  induction l with
  | nil =>
    intro processed x hx
    simpa [innerScan] using hx
  | cons e rest ih =>
    obtain ⟨h2, f2⟩ := e
    intro processed x hx
    by_cases hmem : h2 ∈ processed
    · simp only [innerScan, if_pos hmem]
      exact ih processed x hx
    · by_cases hd : hamming h1 h2 ≤ t
      · simp only [innerScan, if_neg hmem, if_pos hd]
        exact ih (h2 :: processed) x (List.mem_cons_of_mem _ hx)
      · simp only [innerScan, if_neg hmem, if_neg hd]
        exact ih processed x hx

theorem removeScan_spec (t : Nat) (full : List (Nat × String)) :
    ∀ (pending pre : List (Nat × String)) (processed : List Nat),
    full = pre ++ pending → (∀ e ∈ pre, e.1 ∈ processed) →
    ∀ f ∈ removeScan t full pending processed,
    ∃ h2 l1 hr pr l2, full = l1 ++ (hr, pr) :: l2 ∧ (h2, f) ∈ l2 ∧
      hr ≠ h2 ∧ hamming hr h2 ≤ t := by
  intro pending
  induction pending with
  | nil =>
    intro pre processed _ _ f hf
    simp [removeScan] at hf
  | cons e rest ih =>
    obtain ⟨h1, f1⟩ := e
    intro pre processed hfull hpre f hf
    by_cases hmem : h1 ∈ processed
    · simp only [removeScan, if_pos hmem] at hf
      refine ih (pre ++ [(h1, f1)]) processed ?_ ?_ f hf
      · rw [hfull]
        simp
      · intro e he
        rcases List.mem_append.mp he with h | h
        · exact hpre e h
        · simp only [List.mem_singleton] at h
          rw [h]
          exact hmem
    · simp only [removeScan, if_neg hmem] at hf
      rcases List.mem_append.mp hf with hcol | hrec
      · rcases innerScan_collect t h1 full (h1 :: processed) f hcol with
          ⟨h2, hm, hp, hd⟩
        have hne1 : h2 ≠ h1 := fun hx => hp (hx ▸ List.mem_cons_self _ _)
        have hnp : h2 ∉ processed := fun hx =>
          hp (List.mem_cons_of_mem _ hx)
        refine ⟨h2, pre, h1, f1, rest, hfull, ?_, Ne.symm hne1, hd⟩
        rw [hfull] at hm
        rcases List.mem_append.mp hm with hm1 | hm2
        · exact absurd (hpre _ hm1) hnp
        · rcases List.mem_cons.mp hm2 with he | hm3
          · injection he with hk _
            exact absurd hk hne1
          · exact hm3
      · refine ih (pre ++ [(h1, f1)])
          (innerScan t h1 full (h1 :: processed)).2 ?_ ?_ f hrec
        · rw [hfull]
          simp
        · intro e he
          rcases List.mem_append.mp he with h | h
          · exact innerScan_processed_sub t h1 full (h1 :: processed) e.1
              (List.mem_cons_of_mem _ (hpre e h))
          · simp only [List.mem_singleton] at h
            rw [h]
            exact innerScan_processed_sub t h1 full (h1 :: processed) h1
              (List.mem_cons_self _ _)

theorem pair_unique_of_nodup_keys {α β : Type}
    {l : List (α × β)} (hnd : (l.map Prod.fst).Nodup) {p : α} {x y : β}
    (hx : (p, x) ∈ l) (hy : (p, y) ∈ l) : x = y := by
  induction l with
  | nil => cases hx
  | cons e rest ih =>
    simp only [List.map_cons, List.nodup_cons] at hnd
    rcases List.mem_cons.mp hx with hx' | hx'
    · rcases List.mem_cons.mp hy with hy' | hy'
      · rw [← hx'] at hy'
        injection hy' with _ h
        exact h.symm
      · exfalso
        apply hnd.1
        refine List.mem_map.mpr ⟨(p, y), hy', ?_⟩
        rw [← hx']
    · rcases List.mem_cons.mp hy with hy' | hy'
      · exfalso
        apply hnd.1
        refine List.mem_map.mpr ⟨(p, x), hx', ?_⟩
        rw [← hy']
      · exact ih hnd.2 hx' hy'

/-- C10 counterexample: in a directory scan where `f2` and `f3` carry the
byte-identical fingerprint 1 and `f1` carries fingerprint 0 (within
threshold 5 of 1), the survivor `f3` of the identical pair IS deleted —
refuting the claim that none of the identically-fingerprinted files is
ever deleted. -/
theorem identical_fingerprint_deletion_counterexample :
    ("f2", some 1) ∈ [("f1", some 0), ("f2", some 1), ("f3", some 1)] ∧
    ("f3", some 1) ∈ [("f1", some 0), ("f2", some 1), ("f3", some 1)] ∧
    removedFiles 5 [("f1", some 0), ("f2", some 1), ("f3", some 1)] =
      ["f3"] := by
  refine ⟨by decide, by decide, by decide⟩

/-- C10 amended: `remove_duplicates_from_directory` keys candidates by
fingerprint before grouping, so the candidate map has one entry per
fingerprint and each entry holds the last-scanned path for that
fingerprint; earlier files of an identical-fingerprint set are never
candidates and hence never deleted, but the surviving candidate may
itself still be deleted; every removed file is a candidate whose
fingerprint is distinct from, but within threshold of, the fingerprint
of an earlier candidate (its group representative). -/
theorem remove_duplicates_keying_spec (t : Nat)
    (scan : List (String × Option Nat)) :
    ((buildFileHashes scan).map Prod.fst).Nodup ∧
    (∀ h f, (h, f) ∈ buildFileHashes scan →
      lastPathFor scan h = some f) ∧
    (∀ f, f ∈ removedFiles t scan →
      ∃ h2 l1 hr pr l2, buildFileHashes scan = l1 ++ (hr, pr) :: l2 ∧
        (h2, f) ∈ l2 ∧ hr ≠ h2 ∧ hamming hr h2 ≤ t) ∧
    (∀ p h, (scan.map Prod.fst).Nodup → (p, some h) ∈ scan →
      lastPathFor scan h ≠ some p → p ∉ removedFiles t scan) := by
  have hnodup : ((buildFileHashes scan).map Prod.fst).Nodup :=
    buildFoldl_nodup scan [] (by simp)
  have hlast : ∀ h f, (h, f) ∈ buildFileHashes scan →
      lastPathFor scan h = some f := by
    intro h f hm
    rcases buildFoldl_mem_last scan [] h f hm with hl | ⟨_, hmem⟩
    · exact hl
    · cases hmem
  have hrem : ∀ f, f ∈ removedFiles t scan →
      ∃ h2 l1 hr pr l2, buildFileHashes scan = l1 ++ (hr, pr) :: l2 ∧
        (h2, f) ∈ l2 ∧ hr ≠ h2 ∧ hamming hr h2 ≤ t := by
    intro f hf
    exact removeScan_spec t (buildFileHashes scan) (buildFileHashes scan)
      [] [] rfl (by simp) f hf
  refine ⟨hnodup, hlast, hrem, ?_⟩
  intro p h hnd hmem hlp hcontra
  rcases hrem p hcontra with ⟨h2, l1, hr, pr, l2, heq, hmem2, _, _⟩
  have hfh : (h2, p) ∈ buildFileHashes scan := by
    rw [heq]
    exact List.mem_append.mpr (Or.inr (List.mem_cons_of_mem _ hmem2))
  have hsrc : (p, some h2) ∈ scan := by
    rcases buildFoldl_mem_src scan [] h2 p hfh with hc | hc
    · cases hc
    · exact hc
  have heqh : some h = some h2 := pair_unique_of_nodup_keys hnd hmem hsrc
  injection heqh with heqh
  apply hlp
  rw [heqh]
  exact hlast h2 p hfh

/-- C10 amended witness: applying the theorem at the counterexample scan,
the earlier identically-fingerprinted file `f2` (overwritten in the
candidate dict by `f3`) is never deleted. -/
theorem remove_duplicates_keying_spec_witness :
    "f2" ∉ removedFiles 5 [("f1", some 0), ("f2", some 1), ("f3", some 1)] :=
  (remove_duplicates_keying_spec 5
      [("f1", some 0), ("f2", some 1), ("f3", some 1)]).2.2.2 "f2" 1
    (by decide) (by decide) (by decide)

theorem scanDup_of_near {t h0 : Nat} {db : Db}
    (h : ∃ e ∈ db, hamming h0 e.1 ≤ t) : scanDup t db h0 = true := by
  rcases h with ⟨e, he, hd⟩
  unfold scanDup
  rw [List.any_eq_true]
  exact ⟨e, he, by simpa using hd⟩

theorem interleave_perm {α : Type} :
    ∀ (sched : List Bool) (xs ys : List α),
    (interleave sched xs ys).Perm (xs ++ ys) := by
  intro sched
  induction sched with
  | nil => intro xs ys; simp [interleave]
  | cons b bs ih =>
    intro xs ys
    cases xs with
    | nil => simp [interleave]
    | cons x xs' =>
      cases ys with
      | nil => simp [interleave]
      | cons y ys' =>
        cases b with
        | true =>
          rw [show interleave (true :: bs) (x :: xs') (y :: ys') =
            x :: interleave bs xs' (y :: ys') from by simp [interleave]]
          rw [List.cons_append]
          exact List.Perm.cons x (ih xs' (y :: ys'))
        | false =>
          rw [show interleave (false :: bs) (x :: xs') (y :: ys') =
            y :: interleave bs (x :: xs') ys' from by simp [interleave]]
          exact (List.Perm.cons y (ih (x :: xs') ys')).trans
            List.perm_middle.symm

theorem execStep_hash (t : Nat) (db : Db) (i : Nat) :
    execStep t db (i, SKind.hashStep) = (db, none) := rfl

theorem execStep_ci_dup {t : Nat} {db : Db} {h : Nat} (i : Nat) (p : String)
    (hscan : scanDup t db h = true) :
    execStep t db (i, SKind.checkInsert h p) = (db, some (i, true)) := by
  simp [execStep, is_duplicate, hscan]

theorem execStep_ci_new {t : Nat} {db : Db} {h : Nat} (i : Nat) (p : String)
    (hscan : ¬ scanDup t db h = true) :
    execStep t db (i, SKind.checkInsert h p) =
      (db ++ [(h, p)], some (i, false)) := by
  simp [execStep, is_duplicate, hscan]

theorem execSteps_cons (t : Nat) (s : CStep) (l : List CStep) (db : Db) :
    execSteps t (s :: l) db =
      ((execSteps t l (execStep t db s).1).1,
       (execStep t db s).2.toList ++ (execSteps t l (execStep t db s).1).2) :=
  rfl

theorem execSteps_no_id (t : Nat) :
    ∀ (l : List CStep) (db : Db) (i0 : Nat),
    (∀ h p, (i0, SKind.checkInsert h p) ∉ l) →
    ∀ b, (i0, b) ∉ (execSteps t l db).2 := by
  intro l
  induction l with
  | nil =>
    intro db i0 _ b
    simp [execSteps]
  | cons s rest ih =>
    intro db i0 hno b
    obtain ⟨i, k⟩ := s
    cases k with
    | hashStep =>
      rw [execSteps_cons, execStep_hash]
      simp only [Option.toList, List.nil_append]
      exact ih db i0 (fun h p hm => hno h p (List.mem_cons_of_mem _ hm)) b
    | checkInsert h p =>
      have hii : i ≠ i0 := fun he => hno h p (he ▸ List.mem_cons_self _ _)
      have htail : ∀ h' p', (i0, SKind.checkInsert h' p') ∉ rest :=
        fun h' p' hm => hno h' p' (List.mem_cons_of_mem _ hm)
      by_cases hscan : scanDup t db h = true
      · rw [execSteps_cons, execStep_ci_dup i p hscan]
        simp only [Option.toList, List.singleton_append]
        intro hmem
        rcases List.mem_cons.mp hmem with he | hm
        · injection he with he _
          exact hii he.symm
        · exact ih db i0 htail b hm
      · rw [execSteps_cons, execStep_ci_new i p hscan]
        simp only [Option.toList, List.singleton_append]
        intro hmem
        rcases List.mem_cons.mp hmem with he | hm
        · injection he with he _
          exact hii he.symm
        · exact ih (db ++ [(h, p)]) i0 htail b hm

theorem execSteps_sticky (t : Nat) :
    ∀ (l : List CStep) (db : Db) (i0 h0 : Nat),
    (∃ e ∈ db, hamming h0 e.1 ≤ t) →
    (∀ h p, (i0, SKind.checkInsert h p) ∈ l → h = h0) →
    (i0, false) ∉ (execSteps t l db).2 := by
  intro l
  induction l with
  | nil =>
    intro db i0 h0 _ _
    simp [execSteps]
  | cons s rest ih =>
    intro db i0 h0 hnear hid
    obtain ⟨i, k⟩ := s
    cases k with
    | hashStep =>
      rw [execSteps_cons, execStep_hash]
      simp only [Option.toList, List.nil_append]
      exact ih db i0 h0 hnear
        (fun h p hm => hid h p (List.mem_cons_of_mem _ hm))
    | checkInsert h p =>
      have htail : ∀ h' p', (i0, SKind.checkInsert h' p') ∈ rest → h' = h0 :=
        fun h' p' hm => hid h' p' (List.mem_cons_of_mem _ hm)
      by_cases hi : i = i0
      · subst hi
        have hh : h = h0 := hid h p (List.mem_cons_self _ _)
        subst hh
        have hscan : scanDup t db h = true := scanDup_of_near hnear
        rw [execSteps_cons, execStep_ci_dup i p hscan]
        simp only [Option.toList, List.singleton_append]
        intro hmem
        rcases List.mem_cons.mp hmem with he | hm
        · injection he with _ he
          cases he
        · exact ih db i h hnear htail hm
      · by_cases hscan : scanDup t db h = true
        · rw [execSteps_cons, execStep_ci_dup i p hscan]
          simp only [Option.toList, List.singleton_append]
          intro hmem
          rcases List.mem_cons.mp hmem with he | hm
          · injection he with he _
            exact hi he.symm
          · exact ih db i0 h0 hnear htail hm
        · rw [execSteps_cons, execStep_ci_new i p hscan]
          simp only [Option.toList, List.singleton_append]
          intro hmem
          rcases List.mem_cons.mp hmem with he | hm
          · injection he with he _
            exact hi he.symm
          · refine ih (db ++ [(h, p)]) i0 h0 ?_ htail hm
            rcases hnear with ⟨e, he, hd⟩
            exact ⟨e, List.mem_append.mpr (Or.inl he), hd⟩

theorem countStep_tail_le (s x : CStep) (l : List CStep) :
    countStep s l ≤ countStep s (x :: l) := by
  unfold countStep
  rw [List.countP_cons]
  omega

theorem countStep_cons_self (s : CStep) (l : List CStep) :
    countStep s (s :: l) = countStep s l + 1 := by
  unfold countStep
  rw [List.countP_cons]
  simp

theorem countStep_pos_of_mem {s : CStep} {l : List CStep} (h : s ∈ l) :
    0 < countStep s l := by
  unfold countStep
  exact List.countP_pos_iff.mpr ⟨s, h, by simp⟩

theorem execSteps_no_double (t h1 h2 : Nat) (p1 p2 : String)
    (hd : hamming h1 h2 ≤ t) :
    ∀ (l : List CStep) (db : Db),
    (∀ h p, (1, SKind.checkInsert h p) ∈ l → h = h1 ∧ p = p1) →
    (∀ h p, (2, SKind.checkInsert h p) ∈ l → h = h2 ∧ p = p2) →
    countStep (1, SKind.checkInsert h1 p1) l ≤ 1 →
    countStep (2, SKind.checkInsert h2 p2) l ≤ 1 →
    ¬((1, false) ∈ (execSteps t l db).2 ∧
      (2, false) ∈ (execSteps t l db).2) := by
  intro l
  induction l with
  | nil =>
    intro db _ _ _ _ hc
    simp [execSteps] at hc
  | cons s rest ih =>
    intro db H1 H2 Hc1 Hc2 hc
    obtain ⟨hm1, hm2⟩ := hc
    obtain ⟨i, k⟩ := s
    have H1t : ∀ h p, (1, SKind.checkInsert h p) ∈ rest → h = h1 ∧ p = p1 :=
      fun h p hm => H1 h p (List.mem_cons_of_mem _ hm)
    have H2t : ∀ h p, (2, SKind.checkInsert h p) ∈ rest → h = h2 ∧ p = p2 :=
      fun h p hm => H2 h p (List.mem_cons_of_mem _ hm)
    have Hc1t : countStep (1, SKind.checkInsert h1 p1) rest ≤ 1 :=
      le_trans (countStep_tail_le _ _ _) Hc1
    have Hc2t : countStep (2, SKind.checkInsert h2 p2) rest ≤ 1 :=
      le_trans (countStep_tail_le _ _ _) Hc2
    cases k with
    | hashStep =>
      rw [execSteps_cons, execStep_hash] at hm1 hm2
      simp only [Option.toList, List.nil_append] at hm1 hm2
      exact ih db H1t H2t Hc1t Hc2t ⟨hm1, hm2⟩
    | checkInsert h p =>
      by_cases hi1 : i = 1
      · subst hi1
        obtain ⟨hh, hp⟩ := H1 h p (List.mem_cons_self _ _)
        rw [hh, hp] at hm1 hm2
        have hnorest : ∀ h' p',
            (1, SKind.checkInsert h' p') ∉ rest := by
          intro h' p' hm
          obtain ⟨hh', hp'⟩ := H1t h' p' hm
          rw [hh', hp'] at hm
          rw [hh, hp] at Hc1
          rw [countStep_cons_self] at Hc1
          have hpos := countStep_pos_of_mem hm
          omega
        by_cases hscan : scanDup t db h1 = true
        · rw [execSteps_cons, execStep_ci_dup 1 p1 hscan] at hm1
          simp only [Option.toList, List.singleton_append] at hm1
          rcases List.mem_cons.mp hm1 with he | hm
          · injection he with _ he
            cases he
          · exact execSteps_no_id t rest db 1 hnorest false hm
        · rw [execSteps_cons, execStep_ci_new 1 p1 hscan] at hm2
          simp only [Option.toList, List.singleton_append] at hm2
          rcases List.mem_cons.mp hm2 with he | hm
          · injection he with he _
            cases he
          · refine execSteps_sticky t rest (db ++ [(h1, p1)]) 2 h2 ?_
              (fun h' p' hm' => (H2t h' p' hm').1) hm
            refine ⟨(h1, p1), List.mem_append.mpr (Or.inr ?_), ?_⟩
            · exact List.mem_singleton.mpr rfl
            · rw [hamming_comm]
              exact hd
      · by_cases hi2 : i = 2
        · subst hi2
          obtain ⟨hh, hp⟩ := H2 h p (List.mem_cons_self _ _)
          rw [hh, hp] at hm1 hm2
          have hnorest : ∀ h' p',
              (2, SKind.checkInsert h' p') ∉ rest := by
            intro h' p' hm
            obtain ⟨hh', hp'⟩ := H2t h' p' hm
            rw [hh', hp'] at hm
            rw [hh, hp] at Hc2
            rw [countStep_cons_self] at Hc2
            have hpos := countStep_pos_of_mem hm
            omega
          by_cases hscan : scanDup t db h2 = true
          · rw [execSteps_cons, execStep_ci_dup 2 p2 hscan] at hm2
            simp only [Option.toList, List.singleton_append] at hm2
            rcases List.mem_cons.mp hm2 with he | hm
            · injection he with _ he
              cases he
            · exact execSteps_no_id t rest db 2 hnorest false hm
          · rw [execSteps_cons, execStep_ci_new 2 p2 hscan] at hm1
            simp only [Option.toList, List.singleton_append] at hm1
            rcases List.mem_cons.mp hm1 with he | hm
            · injection he with he _
              cases he
            · refine execSteps_sticky t rest (db ++ [(h2, p2)]) 1 h1 ?_
                (fun h' p' hm' => (H1t h' p' hm').1) hm
              refine ⟨(h2, p2), List.mem_append.mpr (Or.inr ?_), hd⟩
              exact List.mem_singleton.mpr rfl
        · by_cases hscan : scanDup t db h = true
          · rw [execSteps_cons, execStep_ci_dup i p hscan] at hm1 hm2
            simp only [Option.toList, List.singleton_append] at hm1 hm2
            rcases List.mem_cons.mp hm1 with he | hm1'
            · injection he with he _
              exact hi1 he.symm
            · rcases List.mem_cons.mp hm2 with he | hm2'
              · injection he with he _
                exact hi2 he.symm
              · exact ih db H1t H2t Hc1t Hc2t ⟨hm1', hm2'⟩
          · rw [execSteps_cons, execStep_ci_new i p hscan] at hm1 hm2
            simp only [Option.toList, List.singleton_append] at hm1 hm2
            rcases List.mem_cons.mp hm1 with he | hm1'
            · injection he with he _
              exact hi1 he.symm
            · rcases List.mem_cons.mp hm2 with he | hm2'
              · injection he with he _
                exact hi2 he.symm
              · exact ih (db ++ [(h, p)]) H1t H2t Hc1t Hc2t
                  ⟨hm1', hm2'⟩

/-- C7: concurrent `is_duplicate` calls cannot race check-then-insert:
each call is two event-loop steps (the awaited hash computation and the
suspension-free check-and-insert section, which runs atomically), and
under every interleaving of two calls whose fingerprints lie within the
threshold of each other, it is never the case that both calls report
not-duplicate (i.e. both insert as distinct non-duplicates). -/
theorem no_check_then_insert_race (sched : List Bool) (t h1 h2 : Nat)
    (p1 p2 : String) (db : Db) (hd : hamming h1 h2 ≤ t) :
    ¬((1, false) ∈ (execSteps t
        (interleave sched (dedupCall 1 h1 p1) (dedupCall 2 h2 p2)) db).2 ∧
      (2, false) ∈ (execSteps t
        (interleave sched (dedupCall 1 h1 p1) (dedupCall 2 h2 p2)) db).2) := by
  have hperm :=
    interleave_perm sched (dedupCall 1 h1 p1) (dedupCall 2 h2 p2)
  apply execSteps_no_double t h1 h2 p1 p2 hd _ db
  · intro h p hm
    have hm' := hperm.mem_iff.mp hm
    simp only [dedupCall, List.append_assoc, List.cons_append,
      List.nil_append, List.mem_cons, List.not_mem_nil, or_false] at hm'
    rcases hm' with he | he | he | he
    · cases he
    · injection he with _ he
      injection he with he1 he2
      exact ⟨he1, he2⟩
    · injection he with he _
      cases he
    · injection he with he _
      cases he
  · intro h p hm
    have hm' := hperm.mem_iff.mp hm
    simp only [dedupCall, List.append_assoc, List.cons_append,
      List.nil_append, List.mem_cons, List.not_mem_nil, or_false] at hm'
    rcases hm' with he | he | he | he
    · cases he
    · injection he with he _
      cases he
    · cases he
    · injection he with _ he
      injection he with he1 he2
      exact ⟨he1, he2⟩
  · unfold countStep
    rw [hperm.countP_eq]
    simp [dedupCall, List.countP_cons]
  · unfold countStep
    rw [hperm.countP_eq]
    simp [dedupCall, List.countP_cons]

/-- C7 witness: under the schedule alternating the two calls
(call 2's hash step and check-and-insert run between call 1's hash step
and its check-and-insert), fingerprints 0 and 1 at threshold 5 are not
both inserted as non-duplicates. -/
theorem no_check_then_insert_race_witness :
    ¬((1, false) ∈ (execSteps 5
        (interleave [true, false, false]
          (dedupCall 1 0 "a") (dedupCall 2 1 "b")) []).2 ∧
      (2, false) ∈ (execSteps 5
        (interleave [true, false, false]
          (dedupCall 1 0 "a") (dedupCall 2 1 "b")) []).2) :=
  no_check_then_insert_race [true, false, false] 5 0 1 "a" "b" []
    (by decide)

theorem attemptGo_definitive (cfg : FilterConfig) (t : Nat)
    (url base urlExt : String) (env : Nat → Fetch) (rem i : Nat) (db : Db)
    (c : Nat) (ct : String) (file : ImgFile) (grid? : Option (List Nat))
    (henv : env i = Fetch.resp c ct file grid?)
    (hdef : c = 404 ∨ c = 403 ∨ c = 410) :
    attemptGo cfg t url base urlExt env (rem + 1) i db =
      ⟨none, [], [], 1, 0, db, 0, none, none⟩ := by
  have hc200 : ¬ (c = 200) := by omega
  simp only [attemptGo, henv]
  rw [if_neg hc200, if_pos hdef]

theorem attemptGo_err_then_ok (cfg : FilterConfig) (t : Nat)
    (url base urlExt : String) (env : Nat → Fetch) (ct : String)
    (file : ImgFile) (grid? : Option (List Nat)) (db2 : Db) (sv : Nat)
    (hval : is_valid_image cfg file = true) :
    ∀ (k rem i : Nat) (db : Db), k < rem →
    (∀ j, j < k → env (i + j) = Fetch.err) →
    env (i + k) = Fetch.resp 200 ct file grid? →
    is_duplicate t db (calculateHash grid?) (base ++ chooseExt ct urlExt) =
      (false, db2, sv) →
    attemptGo cfg t url base urlExt env rem i db =
      ⟨some (url, base ++ chooseExt ct urlExt),
       [base ++ chooseExt ct urlExt], [], k + 1, k, db2, sv,
       some true, some false⟩ := by
  intro k
  induction k with
  | zero =>
    intro rem i db hlt hpre henv hdup
    cases rem with
    | zero => omega
    | succ rem' =>
      rw [Nat.add_zero] at henv
      simp [attemptGo, henv, hval, hdup]
  | succ k' ih =>
    intro rem i db hlt hpre henv hdup
    cases rem with
    | zero => omega
    | succ rem' =>
      have henv0 : env i = Fetch.err := by
        have := hpre 0 (Nat.succ_pos k')
        rwa [Nat.add_zero] at this
      have hrem' : k' < rem' := by omega
      have hpre' : ∀ j, j < k' → env (i + 1 + j) = Fetch.err := by
        intro j hj
        have harith : i + 1 + j = i + (j + 1) := by omega
        rw [harith]
        exact hpre (j + 1) (by omega)
      have henv' : env (i + 1 + k') = Fetch.resp 200 ct file grid? := by
        have harith : i + 1 + k' = i + (k' + 1) := by omega
        rw [harith]
        exact henv
      have hrest := ih rem' (i + 1) db hrem' hpre' henv' hdup
      simp only [attemptGo, henv0, hrest]
      have : ¬ (rem' = 0) := by omega
      simp [this]

theorem attemptGo_all_err (cfg : FilterConfig) (t : Nat)
    (url base urlExt : String) (env : Nat → Fetch) :
    ∀ (rem i : Nat) (db : Db),
    (∀ j, j < rem → env (i + j) = Fetch.err) →
    attemptGo cfg t url base urlExt env rem i db =
      ⟨none, [], [], rem, rem - 1, db, 0, none, none⟩ := by
  intro rem
  induction rem with
  | zero => intro i db _; rfl
  | succ rem' ih =>
    intro i db hall
    have henv0 : env i = Fetch.err := by
      have := hall 0 (Nat.succ_pos rem')
      rwa [Nat.add_zero] at this
    have hall' : ∀ j, j < rem' → env (i + 1 + j) = Fetch.err := by
      intro j hj
      have harith : i + 1 + j = i + (j + 1) := by omega
      rw [harith]
      exact hall (j + 1) (by omega)
    have hrest := ih (i + 1) db hall'
    simp only [attemptGo, henv0, hrest]
    cases rem' with
    | zero => simp
    | succ m => simp

theorem attemptGo_5xx_then_ok (cfg : FilterConfig) (t : Nat)
    (url base urlExt : String) (env : Nat → Fetch) (ct : String)
    (file : ImgFile) (grid? : Option (List Nat)) (db2 : Db) (sv : Nat)
    (hval : is_valid_image cfg file = true) :
    ∀ (k rem i : Nat) (db : Db), k < rem →
    (∀ j, j < k → ∃ c ct' f' g', env (i + j) = Fetch.resp c ct' f' g' ∧
      ¬ (c = 200) ∧ ¬ (c = 404 ∨ c = 403 ∨ c = 410)) →
    env (i + k) = Fetch.resp 200 ct file grid? →
    is_duplicate t db (calculateHash grid?) (base ++ chooseExt ct urlExt) =
      (false, db2, sv) →
    attemptGo cfg t url base urlExt env rem i db =
      ⟨some (url, base ++ chooseExt ct urlExt),
       [base ++ chooseExt ct urlExt], [], k + 1, 0, db2, sv,
       some true, some false⟩ := by
  intro k
  induction k with
  | zero =>
    intro rem i db hlt hpre henv hdup
    cases rem with
    | zero => omega
    | succ rem' =>
      rw [Nat.add_zero] at henv
      simp [attemptGo, henv, hval, hdup]
  | succ k' ih =>
    intro rem i db hlt hpre henv hdup
    cases rem with
    | zero => omega
    | succ rem' =>
      obtain ⟨c, ct', f', g', henv0, hc200, hcdef⟩ :=
        hpre 0 (Nat.succ_pos k')
      rw [Nat.add_zero] at henv0
      have hrem' : k' < rem' := by omega
      have hpre' : ∀ j, j < k' → ∃ c ct' f' g',
          env (i + 1 + j) = Fetch.resp c ct' f' g' ∧ ¬ (c = 200) ∧
          ¬ (c = 404 ∨ c = 403 ∨ c = 410) := by
        intro j hj
        have harith : i + 1 + j = i + (j + 1) := by omega
        rw [harith]
        exact hpre (j + 1) (by omega)
      have henv' : env (i + 1 + k') = Fetch.resp 200 ct file grid? := by
        have harith : i + 1 + k' = i + (k' + 1) := by omega
        rw [harith]
        exact henv
      have hrest := ih rem' (i + 1) db hrem' hpre' henv' hdup
      simp only [attemptGo, henv0, hrest]
      rw [if_neg hc200, if_neg hcdef]

theorem runTasks_length (cfg : FilterConfig) (t retry : Nat)
    (envs : Nat → TaskEnv) :
    ∀ (tasks : List (Nat × String)) (db : Db) (dl : List String)
      (res : List (String × String)),
    (runTasks cfg t retry envs tasks db dl res).outs.length =
      tasks.length := by
  intro tasks
  induction tasks with
  | nil => intro db dl res; rfl
  | cons pr rest ih =>
    obtain ⟨i, url⟩ := pr
    intro db dl res
    simp only [runTasks, List.length_cons]
    rw [ih]

/-- C4 amended: statuses 404/403/410 abandon immediately (one attempt,
no sleep); raised transient failures (timeout, connection error) are
retried up to `retry_attempts` total attempts with a one-second sleep
between attempts, a success on attempt `k` having slept `k` times; a
non-200 response outside {404, 403, 410} (e.g. a 5xx) is also retried up
to `retry_attempts` attempts but immediately, with NO inter-attempt
delay; after exhausting all attempts the call returns the Failed outcome
`none` (it is a total function, nothing propagates), and every task of a
batch still produces an outcome (sibling downloads are not aborted). -/
theorem retry_policy_spec (cfg : FilterConfig) (t retry : Nat)
    (url base urlExt : String) (env : Nat → Fetch) (db : Db) :
    (∀ c ct file grid?, 0 < retry →
      env 0 = Fetch.resp c ct file grid? →
      c = 404 ∨ c = 403 ∨ c = 410 →
      downloadSingle cfg t retry url base urlExt env db =
        ⟨none, [], [], 1, 0, db, 0, none, none⟩) ∧
    (∀ k ct file grid? db2 sv, k < retry →
      (∀ j, j < k → env j = Fetch.err) →
      env k = Fetch.resp 200 ct file grid? →
      is_valid_image cfg file = true →
      is_duplicate t db (calculateHash grid?)
        (base ++ chooseExt ct urlExt) = (false, db2, sv) →
      downloadSingle cfg t retry url base urlExt env db =
        ⟨some (url, base ++ chooseExt ct urlExt),
         [base ++ chooseExt ct urlExt], [], k + 1, k, db2, sv,
         some true, some false⟩) ∧
    ((∀ j, j < retry → env j = Fetch.err) →
      downloadSingle cfg t retry url base urlExt env db =
        ⟨none, [], [], retry, retry - 1, db, 0, none, none⟩) ∧
    (∀ k ct file grid? db2 sv, k < retry →
      (∀ j, j < k → ∃ c ct' f' g', env j = Fetch.resp c ct' f' g' ∧
        ¬ (c = 200) ∧ ¬ (c = 404 ∨ c = 403 ∨ c = 410)) →
      env k = Fetch.resp 200 ct file grid? →
      is_valid_image cfg file = true →
      is_duplicate t db (calculateHash grid?)
        (base ++ chooseExt ct urlExt) = (false, db2, sv) →
      downloadSingle cfg t retry url base urlExt env db =
        ⟨some (url, base ++ chooseExt ct urlExt),
         [base ++ chooseExt ct urlExt], [], k + 1, 0, db2, sv,
         some true, some false⟩) ∧
    (∀ (envs : Nat → TaskEnv) (tasks : List (Nat × String)) (db0 : Db)
       (dl : List String) (res : List (String × String)),
      (runTasks cfg t retry envs tasks db0 dl res).outs.length =
        tasks.length) := by
  refine ⟨?_, ?_, ?_, ?_, ?_⟩
  · intro c ct file grid? hpos henv hdef
    cases retry with
    | zero => omega
    | succ r =>
      exact attemptGo_definitive cfg t url base urlExt env r 0 db c ct
        file grid? henv hdef
  · intro k ct file grid? db2 sv hk hpre henv hval hdup
    refine attemptGo_err_then_ok cfg t url base urlExt env ct file grid?
      db2 sv hval k retry 0 db hk ?_ ?_ hdup
    · intro j hj
      rw [Nat.zero_add]
      exact hpre j hj
    · rw [Nat.zero_add]
      exact henv
  · intro hall
    refine attemptGo_all_err cfg t url base urlExt env retry 0 db ?_
    intro j hj
    rw [Nat.zero_add]
    exact hall j hj
  · intro k ct file grid? db2 sv hk hpre henv hval hdup
    refine attemptGo_5xx_then_ok cfg t url base urlExt env ct file grid?
      db2 sv hval k retry 0 db hk ?_ ?_ hdup
    · intro j hj
      rw [Nat.zero_add]
      exact hpre j hj
    · rw [Nat.zero_add]
      exact henv
  · intro envs tasks db0 dl res
    exact runTasks_length cfg t retry envs tasks db0 dl res

/-- C4 counterexample: with `retry_attempts = 3` and every attempt
answering a 500 response, the loop performs all three attempts but zero
`asyncio.sleep(1)` calls — the fixed one-second inter-attempt delay the
claim asserts for 5xx transient failures (which would require two
sleeps here) does not happen, because the sleep only runs in the
exception handler. -/
theorem retry_delay_counterexample :
    (downloadSingle defaultFilterConfig 5 3 "u" "b" ""
       (fun _ => Fetch.resp 500 "" ⟨none, none⟩ none) []).tried = 3 ∧
    (downloadSingle defaultFilterConfig 5 3 "u" "b" ""
       (fun _ => Fetch.resp 500 "" ⟨none, none⟩ none) []).sleeps = 0 :=
  ⟨rfl, rfl⟩

/-- C4 amended witness: concrete runs of the four retry behaviors — a
404 aborted after one attempt; two raised errors then a success, kept
with two sleeps; three raised errors exhausting the budget with two
sleeps; two 500s then a success, kept with zero sleeps. -/
theorem retry_policy_spec_witness :
    downloadSingle defaultFilterConfig 5 3 "u" "b" "" wEnv404 [] =
      ⟨none, [], [], 1, 0, [], 0, none, none⟩ ∧
    downloadSingle defaultFilterConfig 5 3 "u" "b" "" wEnvRetry [] =
      ⟨some ("u", "b" ++ chooseExt "image/jpeg" ""),
       ["b" ++ chooseExt "image/jpeg" ""], [], 3, 2,
       [(averageHash [], "b" ++ chooseExt "image/jpeg" "")], 1,
       some true, some false⟩ ∧
    downloadSingle defaultFilterConfig 5 3 "u" "b" ""
        (fun _ => Fetch.err) [] =
      ⟨none, [], [], 3, 2, [], 0, none, none⟩ ∧
    downloadSingle defaultFilterConfig 5 3 "u" "b" "" wEnv500 [] =
      ⟨some ("u", "b" ++ chooseExt "image/jpeg" ""),
       ["b" ++ chooseExt "image/jpeg" ""], [], 3, 0,
       [(averageHash [], "b" ++ chooseExt "image/jpeg" "")], 1,
       some true, some false⟩ := by
  refine ⟨?_, ?_, ?_, ?_⟩
  · exact (retry_policy_spec defaultFilterConfig 5 3 "u" "b" "" wEnv404
        []).1 404 "" ⟨none, none⟩ none (by decide) rfl (by decide)
  · exact (retry_policy_spec defaultFilterConfig 5 3 "u" "b" "" wEnvRetry
        []).2.1 2 "image/jpeg" goodImgFile (some [])
        [(averageHash [], "b" ++ chooseExt "image/jpeg" "")] 1
        (by decide) (fun j hj => by simp [wEnvRetry, hj]) (by decide)
        (by decide) rfl
  · exact (retry_policy_spec defaultFilterConfig 5 3 "u" "b" ""
        (fun _ => Fetch.err) []).2.2.1 (fun j _ => rfl)
  · exact (retry_policy_spec defaultFilterConfig 5 3 "u" "b" "" wEnv500
        []).2.2.2.1 2 "image/jpeg" goodImgFile (some [])
        [(averageHash [], "b" ++ chooseExt "image/jpeg" "")] 1
        (by decide)
        (fun j hj => ⟨500, "", ⟨none, none⟩, none,
          by simp [wEnv500, hj], by decide, by decide⟩)
        (by decide) (by decide) rfl

theorem attemptGo_conduct (cfg : FilterConfig) (t : Nat)
    (url base urlExt : String) (env : Nat → Fetch) :
    ∀ (rem i : Nat) (db : Db),
    TaskOK url (attemptGo cfg t url base urlExt env rem i db) := by
  intro rem
  induction rem with
  | zero =>
    intro i db
    refine ⟨by simp [attemptGo], by simp [attemptGo], ?_⟩
    intro u p hk
    simp [attemptGo] at hk
  | succ rem' ih =>
    intro i db
    cases henv : env i with
    | err =>
      have hih := ih (i + 1) db
      simp only [attemptGo, henv]
      exact hih
    | resp status ct file grid? =>
      by_cases hst : status = 200
      · subst hst
        by_cases hval : is_valid_image cfg file = true
        · rcases hdup : is_duplicate t db (calculateHash grid?)
            (base ++ chooseExt ct urlExt) with ⟨dup, db', sv⟩
          cases dup with
          | true =>
            simp only [attemptGo, henv]
            rw [if_pos trivial, if_pos hval, hdup]
            refine ⟨by simp, by simp, ?_⟩
            intro u p hk
            simp at hk
          | false =>
            simp only [attemptGo, henv]
            rw [if_pos trivial, if_pos hval, hdup]
            refine ⟨by simp, by simp, ?_⟩
            intro u p hk
            simp at hk
            obtain ⟨hu, hp⟩ := hk
            rw [← hu, ← hp]
            exact ⟨rfl, rfl, rfl⟩
        · simp only [attemptGo, henv]
          rw [if_pos trivial, if_neg hval]
          refine ⟨by simp, by simp, ?_⟩
          intro u p hk
          simp at hk
      · by_cases hdef : status = 404 ∨ status = 403 ∨ status = 410
        · simp only [attemptGo, henv]
          rw [if_neg hst, if_pos hdef]
          refine ⟨by simp, by simp, ?_⟩
          intro u p hk
          simp at hk
        · have hih := ih (i + 1) db
          simp only [attemptGo, henv]
          rw [if_neg hst, if_neg hdef]
          exact hih

theorem dictInsert_key_iff {α β : Type} [DecidableEq α]
    (db : List (α × β)) (k key : α) (v : β) :
    (∃ p, (key, p) ∈ dictInsert db k v) ↔
      (key = k ∨ ∃ p, (key, p) ∈ db) := by
  constructor
  · rintro ⟨p, hp⟩
    rcases mem_dictInsert hp with hm | he
    · exact Or.inr ⟨p, hm⟩
    · exact Or.inl (congrArg Prod.fst he)
  · intro hor
    by_cases hkey : key = k
    · subst hkey
      unfold dictInsert
      by_cases hany : db.any (fun e => decide (e.1 = key)) = true
      · rw [if_pos hany]
        rw [List.any_eq_true] at hany
        rcases hany with ⟨e, he, he1⟩
        simp only [decide_eq_true_eq] at he1
        exact ⟨v, List.mem_map.mpr ⟨e, he, by rw [if_pos he1]⟩⟩
      · rw [if_neg hany]
        exact ⟨v, List.mem_append.mpr (Or.inr (List.mem_singleton.mpr rfl))⟩
    · rcases hor with he | ⟨p, hp⟩
      · exact absurd he hkey
      · exact ⟨p, (mem_dictInsert_of_ne hkey).mpr hp⟩

theorem runTasks_spec (cfg : FilterConfig) (t retry : Nat)
    (envs : Nat → TaskEnv) :
    ∀ (tasks : List (Nat × String)) (db : Db) (dl : List String)
      (res : List (String × String)),
    (∀ pr ∈ (runTasks cfg t retry envs tasks db dl res).outs,
      TaskOK pr.1 pr.2) ∧
    (∀ url, (∃ p, (url, p) ∈
        (runTasks cfg t retry envs tasks db dl res).results) ↔
      ((∃ p, (url, p) ∈ res) ∨
        ∃ pr ∈ (runTasks cfg t retry envs tasks db dl res).outs,
          pr.1 = url ∧ pr.2.kept.isSome)) := by
  intro tasks
  induction tasks with
  | nil =>
    intro db dl res
    constructor
    · intro pr hpr
      simp [runTasks] at hpr
    · intro url
      simp [runTasks]
  | cons task rest ih =>
    obtain ⟨i, url0⟩ := task
    intro db dl res
    have hok : TaskOK url0 (downloadSingle cfg t retry url0 (imageBase i)
        (envs i).urlExt (envs i).fetch db) :=
      attemptGo_conduct cfg t url0 (imageBase i) (envs i).urlExt
        (envs i).fetch retry 0 db
    constructor
    · intro pr hpr
      simp only [runTasks] at hpr
      rcases List.mem_cons.mp hpr with he | hm
      · rw [he]
        exact hok
      · exact (ih _ _ _).1 pr hm
    · intro url
      simp only [runTasks]
      cases hk : (downloadSingle cfg t retry url0 (imageBase i)
          (envs i).urlExt (envs i).fetch db).kept with
      | none =>
        have hiff := (ih (downloadSingle cfg t retry url0 (imageBase i)
            (envs i).urlExt (envs i).fetch db).db
          (if (downloadSingle cfg t retry url0 (imageBase i)
              (envs i).urlExt (envs i).fetch db).kept.isSome then
            setAdd dl url0 else dl) res).2 url
        rw [hk] at hiff
        simp only [hk]
        constructor
        · intro hex
          rcases hiff.mp hex with hres | ⟨pr, hpr, hq⟩
          · exact Or.inl hres
          · exact Or.inr ⟨pr, List.mem_cons_of_mem _ hpr, hq⟩
        · intro hor
          apply hiff.mpr
          rcases hor with hres | ⟨pr, hpr, hq⟩
          · exact Or.inl hres
          · rcases List.mem_cons.mp hpr with he | hm
            · rw [he] at hq
              simp [hk] at hq
            · exact Or.inr ⟨pr, hm, hq⟩
      | some up =>
        obtain ⟨u, p0⟩ := up
        obtain ⟨hu, _, _⟩ := hok.2.2 u p0 hk
        have hiff := (ih (downloadSingle cfg t retry url0 (imageBase i)
            (envs i).urlExt (envs i).fetch db).db
          (if (downloadSingle cfg t retry url0 (imageBase i)
              (envs i).urlExt (envs i).fetch db).kept.isSome then
            setAdd dl url0 else dl) (dictInsert res u p0)).2 url
        rw [hk] at hiff
        simp only [hk]
        constructor
        · intro hex
          rcases hiff.mp hex with hres | ⟨pr, hpr, hq⟩
          · rcases (dictInsert_key_iff res u url p0).mp hres with he | hres'
            · refine Or.inr ⟨((i, url0).2, (downloadSingle cfg t retry
                url0 (imageBase i) (envs i).urlExt (envs i).fetch db)),
                List.mem_cons_self _ _, ?_, ?_⟩
              · rw [he, hu]
              · rw [hk]
                rfl
            · exact Or.inl hres'
          · exact Or.inr ⟨pr, List.mem_cons_of_mem _ hpr, hq⟩
        · intro hor
          apply hiff.mpr
          rcases hor with hres | ⟨pr, hpr, hq⟩
          · exact Or.inl ((dictInsert_key_iff res u url p0).mpr
              (Or.inr hres))
          · rcases List.mem_cons.mp hpr with he | hm
            · rw [he] at hq
              obtain ⟨hq1, _⟩ := hq
              refine Or.inl ((dictInsert_key_iff res u url p0).mpr
                (Or.inl ?_))
              rw [← hq1, hu]
            · exact Or.inr ⟨pr, hm, hq⟩

/-- C2: for every URL batch, the result mapping of `download_images`
contains a URL exactly when one of its download tasks was kept, i.e. its
fetched file passed the Quality Filter and was reported not-duplicate by
the Duplicate Index; every non-kept task removed every file it wrote
before returning (so nothing it wrote remains on disk), and a kept task
wrote exactly the file recorded in the mapping under its own URL. -/
theorem download_images_result_spec (cfg : FilterConfig) (t retry : Nat)
    (envs : Nat → TaskEnv) (urls : List String) (db0 : Db)
    (dl0 : List String) (b : BatchOut)
    (hb : b = downloadImages cfg t retry envs urls db0 dl0) :
    (∀ url, (∃ p, (url, p) ∈ b.results) ↔
      ∃ pr ∈ b.outs, pr.1 = url ∧ pr.2.kept.isSome) ∧
    (∀ pr ∈ b.outs,
      (pr.2.kept.isSome ↔
        (pr.2.filterV = some true ∧ pr.2.dupV = some false)) ∧
      (pr.2.kept = none → pr.2.removed = pr.2.written) ∧
      (∀ u p, pr.2.kept = some (u, p) →
        u = pr.1 ∧ pr.2.written = [p] ∧ pr.2.removed = [])) := by
  subst hb
  unfold downloadImages
  have hspec := runTasks_spec cfg t retry envs (tasksOf urls dl0) db0 dl0 []
  constructor
  · intro url
    have hiff := hspec.2 url
    constructor
    · intro hex
      rcases hiff.mp hex with hres | h
      · rcases hres with ⟨p, hp⟩
        cases hp
      · exact h
    · intro h
      exact hiff.mpr (Or.inr h)
  · intro pr hpr
    have hok := hspec.1 pr hpr
    exact ⟨hok.1, hok.2.1, fun u p hk => hok.2.2 u p hk⟩

/-- C2 witness: in a two-URL batch where the first URL yields a valid
JPEG and the second a 403, the result mapping contains the first URL and
not the second. -/
theorem download_images_result_spec_witness :
    (∃ p, ("u1", p) ∈
      (downloadImages defaultFilterConfig 5 3 wEnvs2 ["u1", "u2"]
        [] []).results) ∧
    ¬ (∃ p, ("u2", p) ∈
      (downloadImages defaultFilterConfig 5 3 wEnvs2 ["u1", "u2"]
        [] []).results) := by
  have h := download_images_result_spec defaultFilterConfig 5 3 wEnvs2
    ["u1", "u2"] [] [] _ rfl
  constructor
  · exact (h.1 "u1").mpr (by decide)
  · intro hex
    exact absurd ((h.1 "u2").mp hex) (by decide)

end OcrDlp
